import Mathlib

/-!
Verification development for the Mealty diet-planning repository.

The core under study is `find_all_solutions` in `optimization.py` (the
solution search engine) and the weekly planning orchestration in
`handlers.py` (`present_day_plan` / `process_day_review`).  The external
integer-program solver (PuLP / CBC) is modelled as a black-box oracle that,
given the data actually fed to it by the loop body (the filtered catalog,
the targets and the current ledger of no-good support sets), either reports
status Optimal together with the read-back integer quantities, or any
non-optimal status (infeasible / unbounded / timeout), which the code
treats uniformly.  Money and nutrient amounts are embedded as rationals.
-/

namespace Mealty

/-- A catalog item: the columns of `products_df` consumed by the engine
(name, nutrient content per portion and price per portion). -/
structure Product where
  name : String
  proteins : ℚ
  fats : ℚ
  carbs : ℚ
  calories : ℚ
  price : ℚ
  deriving DecidableEq

/-- The daily nutrition targets passed to `find_all_solutions`
(`proteins_target`, `fats_target`, `carbs_target`, `daily_calories`). -/
structure Targets where
  proteins : ℚ
  fats : ℚ
  carbs : ℚ
  calories : ℚ
  deriving DecidableEq

/-- `deviation = 0.05` (optimization.py line 185). -/
def deviation : ℚ := 5 / 100

/-- `max_solutions = 5` (optimization.py line 186). -/
def max_solutions : ℕ := 5

/-- `attempt_limit = 50` (optimization.py line 187). -/
def attempt_limit : ℕ := 50

/-- The pattern (second argument) matches at the very beginning of the
text (first argument); both are char lists. -/
def charsAgree : List Char → List Char → Bool
  | _, [] => true
  | [], _ :: _ => false
  | c :: cs, p :: ps => c == p && charsAgree cs ps

/-- The pattern (second argument) occurs somewhere inside the text. -/
def occursIn : List Char → List Char → Bool
  | [], pat => charsAgree [] pat
  | c :: cs, pat => charsAgree (c :: cs) pat || occursIn cs pat

/-- Case-insensitive substring test: embeds one alternative of the escaped
regex alternation used by
`products_df['name'].str.contains(pattern, case=False, na=False)`. -/
def containsCI (hay pat : String) : Bool :=
  occursIn hay.toLower.toList pat.toLower.toList

/-- The exclusion filter executed at the top of `find_all_solutions`
(optimization.py lines 193-197): drop every product whose name contains at
least one of the excluded substrings, case-insensitively.  An empty
exclusion list is skipped entirely (`if excluded_products:`), leaving the
catalog untouched. -/
def filterCatalog (cat : List Product) (excluded : List String) : List Product :=
  match excluded with
  | [] => cat
  | _ :: _ => cat.filter fun p => !(excluded.any fun e => containsCI p.name e)

/-- The outcome of one black-box solve (`prob.solve(solver)`): status
Optimal with the read-back integer quantity vector, or any other status. -/
inductive SolveResult where
  | optimal (q : List ℕ)
  | failed
  deriving DecidableEq

/-- The black-box solver oracle.  It receives exactly the data the loop
body of `find_all_solutions` encodes into the `LpProblem`: the filtered
catalog (objective coefficients and nutrient rows), the targets and the
current set of ledgered support sets (the no-good constraints). -/
def Solver : Type :=
  List Product → Targets → Finset (Finset ℕ) → SolveResult

/-- Quantity-weighted sum of one per-product column over the catalog,
embedding `lpSum([column[i] * product_vars[i] for i in products_df.index])`
and the corresponding read-back sums. -/
def nutSum (cat : List Product) (f : Product → ℚ) (q : List ℕ) : ℚ :=
  ((cat.zip q).map fun pq => f pq.1 * (pq.2 : ℚ)).sum

/-- `total_cost = (products_df['price'] * products_df['quantity']).sum()`. -/
def totalCost (cat : List Product) (q : List ℕ) : ℚ :=
  nutSum cat (fun p => p.price) q

/-- The two-sided nutrient window of optimization.py lines 217-227:
`target * (1 - deviation) ≤ s` and `s ≤ target * (1 + deviation)`. -/
def inWindow (s target : ℚ) : Prop :=
  target * (1 - deviation) ≤ s ∧ s ≤ target * (1 + deviation)

instance (s target : ℚ) : Decidable (inWindow s target) := by
  unfold inWindow; infer_instance

/-- The support set of a quantity vector: the indices carrying a positive
quantity (`solution_ids = tuple(sorted(selected_products.index))`; a sorted
tuple of distinct indices is identified with the finite set it lists). -/
def support (q : List ℕ) : Finset ℕ :=
  (Finset.range q.length).filter fun i => 0 < q.getD i 0

/-- The no-good cut built for one ledgered support set `S`
(optimization.py lines 230-231): the quantity variables over `S` must sum
to at most `|S| - 1`
(`lpSum([product_vars[i] for i in rejected]) <= len(rejected) - 1`). -/
def noGoodSat (S : Finset ℕ) (q : List ℕ) : Prop :=
  (S.sum fun i => (q.getD i 0 : ℤ)) ≤ (S.card : ℤ) - 1

instance (S : Finset ℕ) (q : List ℕ) : Decidable (noGoodSat S q) := by
  unfold noGoodSat; infer_instance

/-- The complete constraint system one solve is asked to satisfy
(optimization.py lines 205-231): one bounded integer variable per product
of the filtered catalog (0 ≤ qty ≤ 3), the four nutrient windows, and one
no-good cut per ledgered support set. -/
def FeasibleAssign (cat : List Product) (tgt : Targets)
    (ledger : Finset (Finset ℕ)) (q : List ℕ) : Prop :=
  q.length = cat.length ∧
  (∀ x ∈ q, x ≤ 3) ∧
  inWindow (nutSum cat (fun p => p.proteins) q) tgt.proteins ∧
  inWindow (nutSum cat (fun p => p.fats) q) tgt.fats ∧
  inWindow (nutSum cat (fun p => p.carbs) q) tgt.carbs ∧
  inWindow (nutSum cat (fun p => p.calories) q) tgt.calories ∧
  ∀ S ∈ ledger, noGoodSat S q

instance (cat : List Product) (tgt : Targets) (ledger : Finset (Finset ℕ))
    (q : List ℕ) : Decidable (FeasibleAssign cat tgt ledger q) := by
  unfold FeasibleAssign; infer_instance

/-- The solver hands back assignments that satisfy the formulated
constraints whenever its status is optimal. -/
def SolverSound (solver : Solver) (cat : List Product) (tgt : Targets) : Prop :=
  ∀ ledger q, solver cat tgt ledger = .optimal q → FeasibleAssign cat tgt ledger q

/-- The solver hands back cost-minimal satisfying assignments whenever its
status is optimal. -/
def SolverOptimal (solver : Solver) (cat : List Product) (tgt : Targets) : Prop :=
  ∀ ledger q, solver cat tgt ledger = .optimal q →
    FeasibleAssign cat tgt ledger q ∧
    ∀ q2, FeasibleAssign cat tgt ledger q2 → totalCost cat q ≤ totalCost cat q2

/-- One emitted solution: its support set (`ids`), the full quantity
vector over the filtered catalog (`quantities`) and its cost
(`total_cost`); the `products` rows of the Python dict are recoverable
from the catalog and the quantities. -/
structure Solution where
  supp : Finset ℕ
  quantities : List ℕ
  total_cost : ℚ
  deriving DecidableEq

/-- What one call to `find_all_solutions` produces and leaves behind: the
returned list, the final state of the (mutated in place) ledger
`rejected_solutions`, and the number of solver invocations performed. -/
structure SearchResult where
  solutions : List Solution
  ledger : Finset (Finset ℕ)
  calls : ℕ
  deriving DecidableEq

/-- The search loop of `find_all_solutions` (optimization.py lines
210-265).  The fuel argument is the remaining attempt budget
`attempt_limit - attempts`; every non-breaking iteration increments
`attempts` by exactly one, a non-optimal solve breaks out of the loop at
once, a solve whose support set is already ledgered is discarded, and a
fresh solution is appended and its support ledgered immediately. -/
def findAux (solver : Solver) (cat : List Product) (tgt : Targets) :
    Finset (Finset ℕ) → List Solution → ℕ → SearchResult
  | ledger, sols, 0 => ⟨sols, ledger, 0⟩
  | ledger, sols, fuel + 1 =>
    if sols.length < max_solutions then
      match solver cat tgt ledger with
      | .failed => ⟨sols, ledger, 1⟩
      | .optimal q =>
        if support q ∈ ledger then
          let r := findAux solver cat tgt ledger sols fuel
          ⟨r.solutions, r.ledger, r.calls + 1⟩
        else
          let r := findAux solver cat tgt (insert (support q) ledger)
            (sols ++ [⟨support q, q, totalCost cat q⟩]) fuel
          ⟨r.solutions, r.ledger, r.calls + 1⟩
    else ⟨sols, ledger, 0⟩

/-- `find_all_solutions` (optimization.py lines 158-272): apply the
exclusion filter to the catalog, then run the search loop with an empty
result list and the caller-supplied ledger `rejected_solutions`. -/
def find_all_solutions (solver : Solver) (products : List Product)
    (tgt : Targets) (excluded : List String)
    (rejected : Finset (Finset ℕ)) : SearchResult :=
  findAux solver (filterCatalog products excluded) tgt rejected [] attempt_limit

/-- One entry of `weekly_plan` (handlers.py lines 422-426 and 445-465):
the day number, the accepted solution (or `none` for a failed day) and the
day's cost (0 for a failed day). -/
structure DayPlan where
  day : ℕ
  diet : Option Solution
  total_cost : ℚ
  deriving DecidableEq

/-- The orchestrator's per-session FSM data (handlers.py):
`current_day`, `weekly_plan`, the shared rejection ledger
`rejected_solutions` and the per-day rejection counters `attempts`. -/
structure Sess where
  current_day : ℕ
  weekly_plan : List DayPlan
  rejected : Finset (Finset ℕ)
  attempts : ℕ → ℕ

/-- The data fixed for a whole planning session: the solver oracle, the
full catalog `products_df` held in the FSM state, the targets and the
user-supplied exclusion substrings. -/
structure Config where
  solver : Solver
  catalog : List Product
  targets : Targets
  excluded : List String

/-- Outcome of one review step: present the same day again, or fall
through to the day-advance code at the bottom of `process_day_review`. -/
inductive ReviewOut where
  | again (st : Sess)
  | advance (st : Sess)

/-- `process_day_review` (handlers.py lines 433-468) up to the trailing
day-advance: on accept, append the presented solution to the plan; on
reject, ledger its support set and bump the day's counter, retrying the
same day while the counter stays below 5 and otherwise appending the
failure marker (`diet: None, total_cost: 0`). -/
def processDayReview (dec : Bool) (sol : Solution) (st : Sess) : ReviewOut :=
  if dec then
    .advance { st with
      weekly_plan := st.weekly_plan ++ [⟨st.current_day, some sol, sol.total_cost⟩] }
  else
    let rejected2 := insert sol.supp st.rejected
    let a := st.attempts st.current_day + 1
    let attempts2 := fun d => if d = st.current_day then a else st.attempts d
    if a < 5 then
      .again { st with rejected := rejected2, attempts := attempts2 }
    else
      .advance { st with
        rejected := rejected2
        attempts := attempts2
        weekly_plan := st.weekly_plan ++ [⟨st.current_day, none, 0⟩] }

/-- What a session run leaves behind: the final FSM data, the list of
days for which the engine (`find_all_solutions`) was invoked, in call
order, and whether `show_final_plan` was reached. -/
structure SessOut where
  sess : Sess
  callLog : List ℕ
  finished : Bool

/-- `current_day = current_day + 1` before re-entering `present_day_plan`
(handlers.py lines 428 and 472). -/
def nextDay (st : Sess) : Sess :=
  { st with current_day := st.current_day + 1 }

/-- The mutually recursive `present_day_plan` / `process_day_review` pair
(handlers.py lines 379-475), driven by a scripted stream of user
decisions (`true` = accept, `false` = reject) and a fuel bound standing
for the finitely many engine calls a session can make.  Each round calls
the engine for the current day with the session ledger (whose in-place
mutations the engine's result carries back), then: on an empty result,
appends the failure marker and advances (next day, or finish after day
7); on a non-empty result, presents the head solution and consumes one
user decision (an exhausted stream leaves the session paused,
`finished = false`). -/
def sessionRun (cfg : Config) : ℕ → List Bool → Sess → SessOut
  | 0, _, st => ⟨st, [], false⟩
  | fuel + 1, ds, st =>
    let r := find_all_solutions cfg.solver cfg.catalog cfg.targets cfg.excluded st.rejected
    let st1 : Sess := { st with rejected := r.ledger }
    match r.solutions with
    | [] =>
      let st2 : Sess := { st1 with
        weekly_plan := st1.weekly_plan ++ [⟨st1.current_day, none, 0⟩] }
      if st2.current_day < 7 then
        let out := sessionRun cfg fuel ds (nextDay st2)
        ⟨out.sess, st.current_day :: out.callLog, out.finished⟩
      else ⟨st2, [st.current_day], true⟩
    | sol :: _ =>
      match ds with
      | [] => ⟨st1, [st.current_day], false⟩
      | dec :: ds2 =>
        match processDayReview dec sol st1 with
        | .again st2 =>
          let out := sessionRun cfg fuel ds2 st2
          ⟨out.sess, st.current_day :: out.callLog, out.finished⟩
        | .advance st2 =>
          if st2.current_day < 7 then
            let out := sessionRun cfg fuel ds2 (nextDay st2)
            ⟨out.sess, st.current_day :: out.callLog, out.finished⟩
          else ⟨st2, [st.current_day], true⟩

/-- The state installed right before day 1 (handlers.py line 373):
day 1, empty plan, empty ledger, all rejection counters 0. -/
def initSess : Sess := ⟨1, [], ∅, fun _ => 0⟩

/-- The state `present_day_plan` leaves behind when the engine comes back
empty (handlers.py lines 420-426): ledger as returned by the engine,
failure marker appended, counters untouched. -/
def failDayState (st : Sess) (L : Finset (Finset ℕ)) : Sess :=
  { st with
    rejected := L
    weekly_plan := st.weekly_plan ++ [⟨st.current_day, none, 0⟩] }

/-- The state `process_day_review` leaves behind on the rejection that
brings the day's counter to 5 (handlers.py lines 450-465): support set
ledgered, counter bumped to 5, failure marker appended. -/
def rejectedFifth (sol : Solution) (st : Sess) : Sess :=
  { st with
    rejected := insert sol.supp st.rejected
    attempts := fun d =>
      if d = st.current_day then st.attempts st.current_day + 1 else st.attempts d
    weekly_plan := st.weekly_plan ++ [⟨st.current_day, none, 0⟩] }

/-- The spec-side session configuration for the Catalog View contract:
the exclusion filter applied once, before day 1, after which the engine
is always handed the pre-filtered catalog and an empty exclusion list. -/
def onceFiltered (cfg : Config) : Config :=
  { cfg with catalog := filterCatalog cfg.catalog cfg.excluded, excluded := [] }

section FindLemmas

variable (solver : Solver) (cat : List Product) (tgt : Targets)

theorem findAux_zero (L : Finset (Finset ℕ)) (sols : List Solution) :
    findAux solver cat tgt L sols 0 = ⟨sols, L, 0⟩ := rfl

theorem findAux_full (L : Finset (Finset ℕ)) (sols : List Solution) (fuel : ℕ)
    (hlen : ¬ sols.length < max_solutions) :
    findAux solver cat tgt L sols (fuel + 1) = ⟨sols, L, 0⟩ := by
  simp [findAux, hlen]

theorem findAux_failed (L : Finset (Finset ℕ)) (sols : List Solution) (fuel : ℕ)
    (hlen : sols.length < max_solutions)
    (hsol : solver cat tgt L = .failed) :
    findAux solver cat tgt L sols (fuel + 1) = ⟨sols, L, 1⟩ := by
  simp [findAux, hlen, hsol]

theorem findAux_dup (L : Finset (Finset ℕ)) (sols : List Solution) (fuel : ℕ)
    (q : List ℕ) (hlen : sols.length < max_solutions)
    (hsol : solver cat tgt L = .optimal q) (hmem : support q ∈ L) :
    findAux solver cat tgt L sols (fuel + 1) =
      ⟨(findAux solver cat tgt L sols fuel).solutions,
       (findAux solver cat tgt L sols fuel).ledger,
       (findAux solver cat tgt L sols fuel).calls + 1⟩ := by
  simp [findAux, hlen, hsol, hmem]

theorem findAux_new (L : Finset (Finset ℕ)) (sols : List Solution) (fuel : ℕ)
    (q : List ℕ) (hlen : sols.length < max_solutions)
    (hsol : solver cat tgt L = .optimal q) (hmem : support q ∉ L) :
    findAux solver cat tgt L sols (fuel + 1) =
      ⟨(findAux solver cat tgt (insert (support q) L)
          (sols ++ [⟨support q, q, totalCost cat q⟩]) fuel).solutions,
       (findAux solver cat tgt (insert (support q) L)
          (sols ++ [⟨support q, q, totalCost cat q⟩]) fuel).ledger,
       (findAux solver cat tgt (insert (support q) L)
          (sols ++ [⟨support q, q, totalCost cat q⟩]) fuel).calls + 1⟩ := by
  simp [findAux, hlen, hsol, hmem]

/-- Every solution present in the loop's output either was in the
accumulator already or is one the solver produced with optimal status. -/
theorem findAux_emits (P : Solution → Prop)
    (hP : ∀ L q, solver cat tgt L = .optimal q → P ⟨support q, q, totalCost cat q⟩) :
    ∀ (fuel : ℕ) (L : Finset (Finset ℕ)) (sols : List Solution),
      (∀ s ∈ sols, P s) →
      ∀ s ∈ (findAux solver cat tgt L sols fuel).solutions, P s := by
  intro fuel
  induction fuel with
  | zero =>
    intro L sols hacc s hs
    rw [findAux_zero] at hs
    exact hacc s hs
  | succ n ih =>
    intro L sols hacc s hs
    by_cases hlen : sols.length < max_solutions
    · cases hsol : solver cat tgt L with
      | failed =>
        rw [findAux_failed solver cat tgt L sols n hlen hsol] at hs
        exact hacc s hs
      | optimal q =>
        by_cases hmem : support q ∈ L
        · rw [findAux_dup solver cat tgt L sols n q hlen hsol hmem] at hs
          exact ih L sols hacc s hs
        · rw [findAux_new solver cat tgt L sols n q hlen hsol hmem] at hs
          refine ih _ _ ?_ s hs
          intro t ht
          rcases List.mem_append.mp ht with h1 | h2
          · exact hacc t h1
          · rw [List.mem_singleton] at h2
            exact h2 ▸ hP L q hsol
    · rw [findAux_full solver cat tgt L sols n hlen] at hs
      exact hacc s hs

/-- The loop only ever inserts into the ledger. -/
theorem findAux_ledger_mono :
    ∀ (fuel : ℕ) (L : Finset (Finset ℕ)) (sols : List Solution),
      L ⊆ (findAux solver cat tgt L sols fuel).ledger := by
  intro fuel
  induction fuel with
  | zero => intro L sols; rw [findAux_zero]
  | succ n ih =>
    intro L sols
    by_cases hlen : sols.length < max_solutions
    · cases hsol : solver cat tgt L with
      | failed => rw [findAux_failed solver cat tgt L sols n hlen hsol]
      | optimal q =>
        by_cases hmem : support q ∈ L
        · rw [findAux_dup solver cat tgt L sols n q hlen hsol hmem]
          exact ih L sols
        · rw [findAux_new solver cat tgt L sols n q hlen hsol hmem]
          exact (Finset.subset_insert _ L).trans (ih _ _)
    · rw [findAux_full solver cat tgt L sols n hlen]

/-- No solution the loop adds has a support set that was already in some
set `L0` below the running ledger when it was added. -/
theorem findAux_avoids (L0 : Finset (Finset ℕ)) :
    ∀ (fuel : ℕ) (L : Finset (Finset ℕ)) (sols : List Solution),
      L0 ⊆ L → (∀ s ∈ sols, s.supp ∉ L0) →
      ∀ s ∈ (findAux solver cat tgt L sols fuel).solutions, s.supp ∉ L0 := by
  intro fuel
  induction fuel with
  | zero =>
    intro L sols _ hacc s hs
    rw [findAux_zero] at hs
    exact hacc s hs
  | succ n ih =>
    intro L sols hsub hacc s hs
    by_cases hlen : sols.length < max_solutions
    · cases hsol : solver cat tgt L with
      | failed =>
        rw [findAux_failed solver cat tgt L sols n hlen hsol] at hs
        exact hacc s hs
      | optimal q =>
        by_cases hmem : support q ∈ L
        · rw [findAux_dup solver cat tgt L sols n q hlen hsol hmem] at hs
          exact ih L sols hsub hacc s hs
        · rw [findAux_new solver cat tgt L sols n q hlen hsol hmem] at hs
          refine ih _ _ (hsub.trans (Finset.subset_insert _ L)) ?_ s hs
          intro t ht
          rcases List.mem_append.mp ht with h1 | h2
          · exact hacc t h1
          · rw [List.mem_singleton] at h2
            subst h2
            exact fun hc => hmem (hsub hc)
    · rw [findAux_full solver cat tgt L sols n hlen] at hs
      exact hacc s hs

/-- Every output solution's support set is in the output ledger, and the
output solutions carry pairwise distinct support sets. -/
theorem findAux_distinct :
    ∀ (fuel : ℕ) (L : Finset (Finset ℕ)) (sols : List Solution),
      (∀ s ∈ sols, s.supp ∈ L) →
      sols.Pairwise (fun a b => a.supp ≠ b.supp) →
      (∀ s ∈ (findAux solver cat tgt L sols fuel).solutions,
          s.supp ∈ (findAux solver cat tgt L sols fuel).ledger) ∧
      (findAux solver cat tgt L sols fuel).solutions.Pairwise
        (fun a b => a.supp ≠ b.supp) := by
  intro fuel
  induction fuel with
  | zero =>
    intro L sols hin hpw
    rw [findAux_zero]
    exact ⟨hin, hpw⟩
  | succ n ih =>
    intro L sols hin hpw
    by_cases hlen : sols.length < max_solutions
    · cases hsol : solver cat tgt L with
      | failed =>
        rw [findAux_failed solver cat tgt L sols n hlen hsol]
        exact ⟨hin, hpw⟩
      | optimal q =>
        by_cases hmem : support q ∈ L
        · rw [findAux_dup solver cat tgt L sols n q hlen hsol hmem]
          exact ih L sols hin hpw
        · rw [findAux_new solver cat tgt L sols n q hlen hsol hmem]
          refine ih _ _ ?_ ?_
          · intro t ht
            rcases List.mem_append.mp ht with h1 | h2
            · exact Finset.mem_insert_of_mem (hin t h1)
            · rw [List.mem_singleton] at h2
              subst h2
              exact Finset.mem_insert_self _ _
          · rw [List.pairwise_append]
            refine ⟨hpw, List.pairwise_singleton _ _, ?_⟩
            intro a ha b hb
            rw [List.mem_singleton] at hb
            subst hb
            exact fun hc => hmem ((show a.supp = support q from hc) ▸ hin a ha)
    · rw [findAux_full solver cat tgt L sols n hlen]
      exact ⟨hin, hpw⟩

/-- The loop performs at most `fuel` solver invocations. -/
theorem findAux_calls_le :
    ∀ (fuel : ℕ) (L : Finset (Finset ℕ)) (sols : List Solution),
      (findAux solver cat tgt L sols fuel).calls ≤ fuel := by
  intro fuel
  induction fuel with
  | zero => intro L sols; rw [findAux_zero]
  | succ n ih =>
    intro L sols
    by_cases hlen : sols.length < max_solutions
    · cases hsol : solver cat tgt L with
      | failed =>
        rw [findAux_failed solver cat tgt L sols n hlen hsol]
        dsimp only
        omega
      | optimal q =>
        by_cases hmem : support q ∈ L
        · rw [findAux_dup solver cat tgt L sols n q hlen hsol hmem]
          dsimp only
          have := ih L sols
          omega
        · rw [findAux_new solver cat tgt L sols n q hlen hsol hmem]
          dsimp only
          have := ih (insert (support q) L)
            (sols ++ [⟨support q, q, totalCost cat q⟩])
          omega
    · rw [findAux_full solver cat tgt L sols n hlen]
      dsimp only
      omega

/-- The loop never grows the result list beyond `max_solutions`. -/
theorem findAux_length_le :
    ∀ (fuel : ℕ) (L : Finset (Finset ℕ)) (sols : List Solution),
      sols.length ≤ max_solutions →
      (findAux solver cat tgt L sols fuel).solutions.length ≤ max_solutions := by
  intro fuel
  induction fuel with
  | zero =>
    intro L sols h
    rw [findAux_zero]
    exact h
  | succ n ih =>
    intro L sols h
    by_cases hlen : sols.length < max_solutions
    · cases hsol : solver cat tgt L with
      | failed =>
        rw [findAux_failed solver cat tgt L sols n hlen hsol]
        exact h
      | optimal q =>
        by_cases hmem : support q ∈ L
        · rw [findAux_dup solver cat tgt L sols n q hlen hsol hmem]
          exact ih L sols h
        · rw [findAux_new solver cat tgt L sols n q hlen hsol hmem]
          refine ih _ _ ?_
          rw [List.length_append, List.length_singleton]
          omega
    · rw [findAux_full solver cat tgt L sols n hlen]
      exact h

/-- Each solution the loop adds enlarges the ledger by exactly one new
support set: ledger growth equals the number of solutions added. -/
theorem findAux_card :
    ∀ (fuel : ℕ) (L : Finset (Finset ℕ)) (sols : List Solution),
      (findAux solver cat tgt L sols fuel).ledger.card + sols.length =
        L.card + (findAux solver cat tgt L sols fuel).solutions.length := by
  intro fuel
  induction fuel with
  | zero => intro L sols; rw [findAux_zero]
  | succ n ih =>
    intro L sols
    by_cases hlen : sols.length < max_solutions
    · cases hsol : solver cat tgt L with
      | failed =>
        rw [findAux_failed solver cat tgt L sols n hlen hsol]
      | optimal q =>
        by_cases hmem : support q ∈ L
        · rw [findAux_dup solver cat tgt L sols n q hlen hsol hmem]
          exact ih L sols
        · rw [findAux_new solver cat tgt L sols n q hlen hsol hmem]
          dsimp only
          have h := ih (insert (support q) L)
            (sols ++ [⟨support q, q, totalCost cat q⟩])
          rw [List.length_append, List.length_singleton,
            Finset.card_insert_of_not_mem hmem] at h
          omega
    · rw [findAux_full solver cat tgt L sols n hlen]

end FindLemmas

/-- Dropping no-good constraints keeps an assignment feasible: the
formulation for a smaller ledger is weaker. -/
theorem feasible_mono (cat : List Product) (tgt : Targets)
    {L L2 : Finset (Finset ℕ)} (hsub : L ⊆ L2) {q : List ℕ}
    (h : FeasibleAssign cat tgt L2 q) : FeasibleAssign cat tgt L q := by
  obtain ⟨h1, h2, h3, h4, h5, h6, h7⟩ := h
  exact ⟨h1, h2, h3, h4, h5, h6, fun S hS => h7 S (hsub hS)⟩

/-- If every optimal solve is cost-minimal for its own (current-ledger)
formulation, the loop appends solutions in non-decreasing cost order:
the accumulator stays sorted and every accumulated cost is a lower bound
on the cost of anything feasible for the current formulation. -/
theorem findAux_cost_mono (solver : Solver) (cat : List Product) (tgt : Targets)
    (hopt : SolverOptimal solver cat tgt) :
    ∀ (fuel : ℕ) (L : Finset (Finset ℕ)) (sols : List Solution),
      sols.Pairwise (fun a b => a.total_cost ≤ b.total_cost) →
      (∀ s ∈ sols, ∀ q, FeasibleAssign cat tgt L q →
        s.total_cost ≤ totalCost cat q) →
      (findAux solver cat tgt L sols fuel).solutions.Pairwise
        (fun a b => a.total_cost ≤ b.total_cost) := by
  intro fuel
  induction fuel with
  | zero =>
    intro L sols hpw _
    rw [findAux_zero]
    exact hpw
  | succ n ih =>
    intro L sols hpw hlow
    by_cases hlen : sols.length < max_solutions
    · cases hsol : solver cat tgt L with
      | failed =>
        rw [findAux_failed solver cat tgt L sols n hlen hsol]
        exact hpw
      | optimal q =>
        have hfeas := (hopt L q hsol).1
        have hmin := (hopt L q hsol).2
        by_cases hmem : support q ∈ L
        · rw [findAux_dup solver cat tgt L sols n q hlen hsol hmem]
          exact ih L sols hpw hlow
        · rw [findAux_new solver cat tgt L sols n q hlen hsol hmem]
          refine ih _ _ ?_ ?_
          · rw [List.pairwise_append]
            refine ⟨hpw, List.pairwise_singleton _ _, ?_⟩
            intro a ha b hb
            rw [List.mem_singleton] at hb
            subst hb
            exact hlow a ha q hfeas
          · intro t ht q2 hq2
            have hq2L := feasible_mono cat tgt (Finset.subset_insert _ L) hq2
            rcases List.mem_append.mp ht with h1 | h2
            · exact hlow t h1 q2 hq2L
            · rw [List.mem_singleton] at h2
              subst h2
              exact hmin q2 hq2L
    · rw [findAux_full solver cat tgt L sols n hlen]
      exact hpw

/-- The state carried by either review outcome. -/
def ReviewOut.state : ReviewOut → Sess
  | .again st => st
  | .advance st => st

theorem processDayReview_rejected_mono (dec : Bool) (sol : Solution) (st : Sess) :
    st.rejected ⊆ (processDayReview dec sol st).state.rejected := by
  unfold processDayReview
  by_cases hdec : dec
  · simp [hdec, ReviewOut.state]
  · simp only [hdec, if_false, Bool.false_eq_true]
    split
    · simp only [ReviewOut.state]
      exact Finset.subset_insert _ _
    · simp only [ReviewOut.state]
      exact Finset.subset_insert _ _

theorem processDayReview_day (dec : Bool) (sol : Solution) (st : Sess) :
    (processDayReview dec sol st).state.current_day = st.current_day := by
  unfold processDayReview
  by_cases hdec : dec
  · simp [hdec, ReviewOut.state]
  · simp only [hdec, if_false, Bool.false_eq_true]
    split <;> simp only [ReviewOut.state]

/-- The session state right after the engine's in-place ledger mutations
are written back (`rejected_solutions` after the call). -/
def ledgered (cfg : Config) (st : Sess) : Sess :=
  { st with
    rejected := (find_all_solutions cfg.solver cfg.catalog cfg.targets
      cfg.excluded st.rejected).ledger }

/-- The session state `present_day_plan` leaves when the engine comes
back empty: ledger written back and failure marker appended. -/
def failStep (cfg : Config) (st : Sess) : Sess :=
  failDayState st (find_all_solutions cfg.solver cfg.catalog cfg.targets
    cfg.excluded st.rejected).ledger

section SessionLemmas

variable (cfg : Config)

theorem sessionRun_zero (ds : List Bool) (st : Sess) :
    sessionRun cfg 0 ds st = ⟨st, [], false⟩ := rfl

theorem sessionRun_empty_lt (fuel : ℕ) (ds : List Bool) (st : Sess)
    (hempty : (find_all_solutions cfg.solver cfg.catalog cfg.targets
      cfg.excluded st.rejected).solutions = [])
    (h7 : st.current_day < 7) :
    sessionRun cfg (fuel + 1) ds st =
      ⟨(sessionRun cfg fuel ds (nextDay (failStep cfg st))).sess,
       st.current_day ::
         (sessionRun cfg fuel ds (nextDay (failStep cfg st))).callLog,
       (sessionRun cfg fuel ds (nextDay (failStep cfg st))).finished⟩ := by
  simp [sessionRun, hempty, h7, failStep, failDayState, nextDay]

theorem sessionRun_empty_last (fuel : ℕ) (ds : List Bool) (st : Sess)
    (hempty : (find_all_solutions cfg.solver cfg.catalog cfg.targets
      cfg.excluded st.rejected).solutions = [])
    (h7 : ¬ st.current_day < 7) :
    sessionRun cfg (fuel + 1) ds st = ⟨failStep cfg st, [st.current_day], true⟩ := by
  simp [sessionRun, hempty, h7, failStep, failDayState]

theorem sessionRun_pause (fuel : ℕ) (st : Sess) (sol : Solution)
    (rest : List Solution)
    (hsols : (find_all_solutions cfg.solver cfg.catalog cfg.targets
      cfg.excluded st.rejected).solutions = sol :: rest) :
    sessionRun cfg (fuel + 1) [] st = ⟨ledgered cfg st, [st.current_day], false⟩ := by
  simp [sessionRun, hsols, ledgered]

theorem sessionRun_again (fuel : ℕ) (ds2 : List Bool) (st st2 : Sess)
    (dec : Bool) (sol : Solution) (rest : List Solution)
    (hsols : (find_all_solutions cfg.solver cfg.catalog cfg.targets
      cfg.excluded st.rejected).solutions = sol :: rest)
    (hrev : processDayReview dec sol (ledgered cfg st) = .again st2) :
    sessionRun cfg (fuel + 1) (dec :: ds2) st =
      ⟨(sessionRun cfg fuel ds2 st2).sess,
       st.current_day :: (sessionRun cfg fuel ds2 st2).callLog,
       (sessionRun cfg fuel ds2 st2).finished⟩ := by
  have h2 : processDayReview dec sol
      { st with rejected := (find_all_solutions cfg.solver cfg.catalog
        cfg.targets cfg.excluded st.rejected).ledger } = .again st2 := hrev
  simp [sessionRun, hsols, h2]

theorem sessionRun_advance_lt (fuel : ℕ) (ds2 : List Bool) (st st2 : Sess)
    (dec : Bool) (sol : Solution) (rest : List Solution)
    (hsols : (find_all_solutions cfg.solver cfg.catalog cfg.targets
      cfg.excluded st.rejected).solutions = sol :: rest)
    (hrev : processDayReview dec sol (ledgered cfg st) = .advance st2)
    (h7 : st2.current_day < 7) :
    sessionRun cfg (fuel + 1) (dec :: ds2) st =
      ⟨(sessionRun cfg fuel ds2 (nextDay st2)).sess,
       st.current_day :: (sessionRun cfg fuel ds2 (nextDay st2)).callLog,
       (sessionRun cfg fuel ds2 (nextDay st2)).finished⟩ := by
  have h2 : processDayReview dec sol
      { st with rejected := (find_all_solutions cfg.solver cfg.catalog
        cfg.targets cfg.excluded st.rejected).ledger } = .advance st2 := hrev
  simp [sessionRun, hsols, h2, h7]

theorem sessionRun_advance_last (fuel : ℕ) (ds2 : List Bool) (st st2 : Sess)
    (dec : Bool) (sol : Solution) (rest : List Solution)
    (hsols : (find_all_solutions cfg.solver cfg.catalog cfg.targets
      cfg.excluded st.rejected).solutions = sol :: rest)
    (hrev : processDayReview dec sol (ledgered cfg st) = .advance st2)
    (h7 : ¬ st2.current_day < 7) :
    sessionRun cfg (fuel + 1) (dec :: ds2) st = ⟨st2, [st.current_day], true⟩ := by
  have h2 : processDayReview dec sol
      { st with rejected := (find_all_solutions cfg.solver cfg.catalog
        cfg.targets cfg.excluded st.rejected).ledger } = .advance st2 := hrev
  simp [sessionRun, hsols, h2, h7]

end SessionLemmas

theorem find_ledger_mono (solver : Solver) (products : List Product)
    (tgt : Targets) (excluded : List String) (rejected : Finset (Finset ℕ)) :
    rejected ⊆ (find_all_solutions solver products tgt excluded rejected).ledger :=
  findAux_ledger_mono solver (filterCatalog products excluded) tgt
    attempt_limit rejected []

/-- Every engine call a run performs is for the current day or a later
one: the orchestrator's day counter never moves backwards. -/
theorem sessionRun_callLog_ge (cfg : Config) :
    ∀ (fuel : ℕ) (ds : List Bool) (st : Sess),
      ∀ d ∈ (sessionRun cfg fuel ds st).callLog, st.current_day ≤ d := by
  intro fuel
  induction fuel with
  | zero =>
    intro ds st d hd
    rw [sessionRun_zero] at hd
    simp at hd
  | succ n ih =>
    intro ds st d hd
    cases hsols : (find_all_solutions cfg.solver cfg.catalog cfg.targets
      cfg.excluded st.rejected).solutions with
    | nil =>
      by_cases h7 : st.current_day < 7
      · rw [sessionRun_empty_lt cfg n ds st hsols h7] at hd
        dsimp only at hd
        rcases List.mem_cons.mp hd with h | h
        · omega
        · have hge := ih ds (nextDay (failStep cfg st)) d h
          simp only [nextDay, failStep, failDayState] at hge
          omega
      · rw [sessionRun_empty_last cfg n ds st hsols h7] at hd
        simp at hd
        omega
    | cons sol rest =>
      cases ds with
      | nil =>
        rw [sessionRun_pause cfg n st sol rest hsols] at hd
        simp at hd
        omega
      | cons dec ds2 =>
        cases hrev : processDayReview dec sol (ledgered cfg st) with
        | again st2 =>
          have hday : st2.current_day = st.current_day := by
            have hpd := processDayReview_day dec sol (ledgered cfg st)
            rw [hrev] at hpd
            simpa [ReviewOut.state, ledgered] using hpd
          rw [sessionRun_again cfg n ds2 st st2 dec sol rest hsols hrev] at hd
          dsimp only at hd
          rcases List.mem_cons.mp hd with h | h
          · omega
          · have hge := ih ds2 st2 d h
            omega
        | advance st2 =>
          have hday : st2.current_day = st.current_day := by
            have hpd := processDayReview_day dec sol (ledgered cfg st)
            rw [hrev] at hpd
            simpa [ReviewOut.state, ledgered] using hpd
          by_cases h7 : st2.current_day < 7
          · rw [sessionRun_advance_lt cfg n ds2 st st2 dec sol rest
              hsols hrev h7] at hd
            dsimp only at hd
            rcases List.mem_cons.mp hd with h | h
            · omega
            · have hge := ih ds2 (nextDay st2) d h
              simp only [nextDay] at hge
              omega
          · rw [sessionRun_advance_last cfg n ds2 st st2 dec sol rest
              hsols hrev h7] at hd
            simp at hd
            omega

/-- Across a whole run the session ledger only ever grows. -/
theorem sessionRun_rejected_mono (cfg : Config) :
    ∀ (fuel : ℕ) (ds : List Bool) (st : Sess),
      st.rejected ⊆ (sessionRun cfg fuel ds st).sess.rejected := by
  intro fuel
  induction fuel with
  | zero =>
    intro ds st
    rw [sessionRun_zero]
  | succ n ih =>
    intro ds st
    have hfind : st.rejected ⊆ (find_all_solutions cfg.solver cfg.catalog
        cfg.targets cfg.excluded st.rejected).ledger :=
      find_ledger_mono cfg.solver cfg.catalog cfg.targets cfg.excluded st.rejected
    cases hsols : (find_all_solutions cfg.solver cfg.catalog cfg.targets
      cfg.excluded st.rejected).solutions with
    | nil =>
      by_cases h7 : st.current_day < 7
      · rw [sessionRun_empty_lt cfg n ds st hsols h7]
        dsimp only
        refine hfind.trans ?_
        have := ih ds (nextDay (failStep cfg st))
        simpa [nextDay, failStep, failDayState] using this
      · rw [sessionRun_empty_last cfg n ds st hsols h7]
        dsimp only
        simpa [failStep, failDayState] using hfind
    | cons sol rest =>
      cases ds with
      | nil =>
        rw [sessionRun_pause cfg n st sol rest hsols]
        dsimp only
        simpa [ledgered] using hfind
      | cons dec ds2 =>
        have hrm : (ledgered cfg st).rejected ⊆
            (processDayReview dec sol (ledgered cfg st)).state.rejected :=
          processDayReview_rejected_mono dec sol (ledgered cfg st)
        have hled : st.rejected ⊆ (ledgered cfg st).rejected := by
          simpa [ledgered] using hfind
        cases hrev : processDayReview dec sol (ledgered cfg st) with
        | again st2 =>
          rw [hrev] at hrm
          simp only [ReviewOut.state] at hrm
          rw [sessionRun_again cfg n ds2 st st2 dec sol rest hsols hrev]
          dsimp only
          exact (hled.trans hrm).trans (ih ds2 st2)
        | advance st2 =>
          rw [hrev] at hrm
          simp only [ReviewOut.state] at hrm
          by_cases h7 : st2.current_day < 7
          · rw [sessionRun_advance_lt cfg n ds2 st st2 dec sol rest hsols hrev h7]
            dsimp only
            refine ((hled.trans hrm).trans ?_)
            have := ih ds2 (nextDay st2)
            simpa [nextDay] using this
          · rw [sessionRun_advance_last cfg n ds2 st st2 dec sol rest hsols hrev h7]
            dsimp only
            exact hled.trans hrm

/-- Selecting all members of a ledgered support set simultaneously always
violates its no-good cut, whatever the (positive) quantities are. -/
theorem noGood_blocks (S : Finset ℕ) (q : List ℕ) (hsub : S ⊆ support q) :
    ¬ noGoodSat S q := by
  intro hng
  have h1 : ∀ i ∈ S, (1 : ℤ) ≤ (q.getD i 0 : ℤ) := by
    intro i hi
    have hmem := hsub hi
    simp only [support, Finset.mem_filter, Finset.mem_range] at hmem
    exact_mod_cast hmem.2
  have h2 := Finset.card_nsmul_le_sum S (fun i => (q.getD i 0 : ℤ)) 1 h1
  simp only [nsmul_eq_mul, mul_one] at h2
  unfold noGoodSat at hng
  omega

/-- With all quantities over `S` at most 1, an assignment supported on a
strict subset of `S` satisfies the no-good cut of `S`. -/
theorem noGood_allows_subset (S : Finset ℕ) (q : List ℕ)
    (hq : ∀ i ∈ S, q.getD i 0 ≤ 1) (hss : support q ⊂ S) :
    noGoodSat S q := by
  obtain ⟨j, hjS, hjn⟩ := Finset.exists_of_ssubset hss
  have hj0 : q.getD j 0 = 0 := by
    by_contra hne
    apply hjn
    simp only [support, Finset.mem_filter, Finset.mem_range]
    constructor
    · by_contra hlen
      push_neg at hlen
      rw [List.getD_eq_default _ _ hlen] at hne
      exact hne rfl
    · exact Nat.pos_of_ne_zero hne
  unfold noGoodSat
  have hsum : (S.sum fun i => (q.getD i 0 : ℤ)) =
      ((S.erase j).sum fun i => (q.getD i 0 : ℤ)) := by
    rw [← Finset.sum_erase_add S _ hjS, hj0]
    simp
  rw [hsum]
  have hle := Finset.sum_le_card_nsmul (S.erase j)
    (fun i => (q.getD i 0 : ℤ)) 1 ?_
  · simp only [nsmul_eq_mul, mul_one] at hle
    have hcard : (S.erase j).card = S.card - 1 := Finset.card_erase_of_mem hjS
    have hpos : 0 < S.card := Finset.card_pos.mpr ⟨j, hjS⟩
    omega
  · intro i hi
    show (q.getD i 0 : ℤ) ≤ 1
    exact_mod_cast hq i (Finset.mem_of_mem_erase hi)

/-! Concrete data used by witnesses: the two-item scenario of the spec's
testable properties (items A and B with targets 15/7/30/250), a
single-item catalog, and solver oracles for them. -/

def wProdA : Product := ⟨"A", 10, 5, 20, 170, 2⟩

def wProdB : Product := ⟨"B", 5, 2, 10, 80, 1⟩

def wCat : List Product := [wProdA, wProdB]

def wTgt : Targets := ⟨15, 7, 30, 250⟩

def wSolver : Solver := fun _ _ L => if L = ∅ then .optimal [1, 1] else .failed

theorem wSolver_sound : SolverSound wSolver wCat wTgt := by
  intro L q h
  unfold wSolver at h
  split at h
  case isTrue hL =>
    cases h
    subst hL
    refine ⟨rfl, by decide, ?_, ?_, ?_, ?_, by simp⟩ <;>
      norm_num [inWindow, nutSum, wCat, wProdA, wProdB, wTgt, deviation]
  case isFalse => exact absurd h (by simp)

/-- C1: assuming the black-box solver returns an assignment satisfying the
formulated constraints whenever its status is optimal, every solution
returned by `find_all_solutions` has all four quantity-weighted nutrient
sums (proteins, fats, carbs, calories) within
`target * [1 - deviation, 1 + deviation]` inclusive, with the deviation
fixed at 0.05. -/
theorem C1_nutrient_window (solver : Solver) (products : List Product)
    (tgt : Targets) (excluded : List String) (rejected : Finset (Finset ℕ))
    (hsound : SolverSound solver (filterCatalog products excluded) tgt) :
    ∀ s ∈ (find_all_solutions solver products tgt excluded rejected).solutions,
      inWindow (nutSum (filterCatalog products excluded)
        (fun p => p.proteins) s.quantities) tgt.proteins ∧
      inWindow (nutSum (filterCatalog products excluded)
        (fun p => p.fats) s.quantities) tgt.fats ∧
      inWindow (nutSum (filterCatalog products excluded)
        (fun p => p.carbs) s.quantities) tgt.carbs ∧
      inWindow (nutSum (filterCatalog products excluded)
        (fun p => p.calories) s.quantities) tgt.calories := by
  intro s hs
  refine findAux_emits solver (filterCatalog products excluded) tgt
    (fun t =>
      inWindow (nutSum (filterCatalog products excluded)
        (fun p => p.proteins) t.quantities) tgt.proteins ∧
      inWindow (nutSum (filterCatalog products excluded)
        (fun p => p.fats) t.quantities) tgt.fats ∧
      inWindow (nutSum (filterCatalog products excluded)
        (fun p => p.carbs) t.quantities) tgt.carbs ∧
      inWindow (nutSum (filterCatalog products excluded)
        (fun p => p.calories) t.quantities) tgt.calories)
    ?_ attempt_limit rejected [] (by simp) s hs
  intro L q h
  have hf := hsound L q h
  exact ⟨hf.2.2.1, hf.2.2.2.1, hf.2.2.2.2.1, hf.2.2.2.2.2.1⟩

theorem find_wSolver_eval :
    (find_all_solutions wSolver wCat wTgt [] ∅).solutions =
      [⟨support [1, 1], [1, 1], totalCost wCat [1, 1]⟩] := by
  show (findAux wSolver wCat wTgt ∅ [] (49 + 1)).solutions = _
  rw [findAux_new wSolver wCat wTgt ∅ [] 49 [1, 1]
    (by decide) (by decide) (by decide)]
  rw [show (49 : ℕ) = 48 + 1 from rfl]
  rw [findAux_failed wSolver wCat wTgt _ _ 48 (by decide) (by decide)]
  simp

theorem C1_nutrient_window_witness :
    inWindow (nutSum (filterCatalog wCat [])
      (fun p => p.proteins) [1, 1]) wTgt.proteins ∧
    inWindow (nutSum (filterCatalog wCat [])
      (fun p => p.fats) [1, 1]) wTgt.fats ∧
    inWindow (nutSum (filterCatalog wCat [])
      (fun p => p.carbs) [1, 1]) wTgt.carbs ∧
    inWindow (nutSum (filterCatalog wCat [])
      (fun p => p.calories) [1, 1]) wTgt.calories :=
  C1_nutrient_window wSolver wCat wTgt [] ∅ wSolver_sound
    ⟨support [1, 1], [1, 1], totalCost wCat [1, 1]⟩
    (by rw [find_wSolver_eval]; exact List.mem_singleton_self _)

/-- C2: within one session sharing one rejection ledger, each support set
is proposed at most once.  For a single engine call: the input ledger is
contained in the output ledger, the returned solutions carry pairwise
distinct support sets, and no returned solution's support set was already
in the ledger at call time; and across a session, the ledger threaded
through the orchestrator only ever grows, so a ledgered support set is
never returned by any later call. -/
theorem C2_support_unique (solver : Solver) (products : List Product)
    (tgt : Targets) (excluded : List String) (rejected : Finset (Finset ℕ))
    (cfg : Config) :
    rejected ⊆ (find_all_solutions solver products tgt excluded rejected).ledger ∧
    (find_all_solutions solver products tgt excluded rejected).solutions.Pairwise
      (fun a b => a.supp ≠ b.supp) ∧
    (∀ s ∈ (find_all_solutions solver products tgt excluded rejected).solutions,
      s.supp ∉ rejected) ∧
    (∀ (fuel : ℕ) (ds : List Bool) (st : Sess),
      st.rejected ⊆ (sessionRun cfg fuel ds st).sess.rejected) := by
  refine ⟨find_ledger_mono solver products tgt excluded rejected, ?_, ?_, ?_⟩
  · exact (findAux_distinct solver (filterCatalog products excluded) tgt
      attempt_limit rejected [] (by simp) List.Pairwise.nil).2
  · exact findAux_avoids solver (filterCatalog products excluded) tgt
      rejected attempt_limit rejected [] (fun _ h => h) (by simp)
  · exact fun fuel ds st => sessionRun_rejected_mono cfg fuel ds st

/-- C3 counterexample: the claim that the no-good cut of a ledgered
support set `S` is never violated by an assignment supported on a strict
subset of `S`, nor by an assignment with support exactly `S` but other
quantities, is false.  With `S = {0, 1}`: the in-bounds assignment
`[2, 0]` is supported on the strict subset `{0}` yet violates the cut,
and `[2, 1]` has support exactly `S` with quantities different from the
ledgered `[1, 1]` yet violates the cut as well. -/
theorem C3_counterexample :
    (support [2, 0] ⊂ ({0, 1} : Finset ℕ) ∧ (∀ x ∈ [2, 0], x ≤ 3) ∧
      ¬ noGoodSat {0, 1} [2, 0]) ∧
    (support [2, 1] = ({0, 1} : Finset ℕ) ∧ [2, 1] ≠ [1, 1] ∧
      ¬ noGoodSat {0, 1} [2, 1]) := by
  decide

/-- C3 amended: the no-good cut for a ledgered support set `S` bounds the
total quantity over `S` by `|S| - 1`, so it inspects amounts, not just
membership: it forbids every assignment that selects all members of `S`
simultaneously (any quantities, hence also the same support with
different quantities), while an assignment supported on a strict subset
of `S` satisfies the cut whenever its quantities over `S` are all at most
1 (larger quantities on a strict subset may still violate it). -/
theorem C3_amended (S : Finset ℕ) (q : List ℕ) :
    (S ⊆ support q → ¬ noGoodSat S q) ∧
    ((∀ i ∈ S, q.getD i 0 ≤ 1) → support q ⊂ S → noGoodSat S q) :=
  ⟨noGood_blocks S q, noGood_allows_subset S q⟩

theorem C3_amended_witness :
    ¬ noGoodSat {0, 1} [1, 1] ∧ noGoodSat {0, 1} [1, 0] :=
  ⟨(C3_amended {0, 1} [1, 1]).1 (by decide),
   (C3_amended {0, 1} [1, 0]).2 (by decide) (by decide)⟩

/-- C4: whenever a solve comes back with a non-optimal status, the search
loop stops at once: exactly that one solver invocation happens, the
result does not depend on the remaining attempt budget, and the solutions
collected so far (empty or not) are returned unchanged. -/
theorem C4_nonoptimal_stops (solver : Solver) (cat : List Product)
    (tgt : Targets) (L : Finset (Finset ℕ)) (sols : List Solution) (fuel : ℕ)
    (hlen : sols.length < max_solutions)
    (hfail : solver cat tgt L = .failed) :
    findAux solver cat tgt L sols (fuel + 1) = ⟨sols, L, 1⟩ :=
  findAux_failed solver cat tgt L sols fuel hlen hfail

theorem C4_nonoptimal_stops_witness :
    findAux (fun _ _ _ => .failed) [] ⟨0, 0, 0, 0⟩ ∅ [] (49 + 1) = ⟨[], ∅, 1⟩ :=
  C4_nonoptimal_stops (fun _ _ _ => .failed) [] ⟨0, 0, 0, 0⟩ ∅ [] 49
    (by decide) rfl

/-- C5: when a day's rejection counter stands at 4 (four rejections
already consumed) and the user rejects the presented solution once more
(the fifth consecutive rejection), the review step resolves the day with
the failure marker (null diet, cost 0) and hands control to the
day-advance code; the next day's counter is 0 (counters of days beyond
the current one are untouched, at 0), and every engine call the
continuation performs is for a strictly later day, so no further solver
call happens for the abandoned day. -/
theorem C5_retry_exhausted (cfg : Config) (sol : Solution) (st : Sess)
    (fuel : ℕ) (ds : List Bool)
    (hatt : st.attempts st.current_day = 4)
    (hinv : ∀ d, st.current_day < d → st.attempts d = 0) :
    processDayReview false sol st = .advance (rejectedFifth sol st) ∧
    (rejectedFifth sol st).weekly_plan =
      st.weekly_plan ++ [⟨st.current_day, none, 0⟩] ∧
    (rejectedFifth sol st).attempts (st.current_day + 1) = 0 ∧
    (st.current_day < 7 →
      ∀ d ∈ (sessionRun cfg fuel ds (nextDay (rejectedFifth sol st))).callLog,
        st.current_day < d) := by
  refine ⟨?_, rfl, ?_, ?_⟩
  · simp [processDayReview, rejectedFifth, hatt]
  · show (if st.current_day + 1 = st.current_day
      then st.attempts st.current_day + 1
      else st.attempts (st.current_day + 1)) = 0
    rw [if_neg (by omega)]
    exact hinv _ (Nat.lt_succ_self _)
  · intro _ d hd
    have hge := sessionRun_callLog_ge cfg fuel ds
      (nextDay (rejectedFifth sol st)) d hd
    simp only [nextDay, rejectedFifth] at hge
    omega

def wCfg : Config := ⟨fun _ _ _ => .failed, [], ⟨0, 0, 0, 0⟩, []⟩

def wSol5 : Solution := ⟨{0}, [1], 1⟩

def wSt5 : Sess := ⟨3, [], ∅, fun d => if d = 3 then 4 else 0⟩

theorem C5_retry_exhausted_witness :
    processDayReview false wSol5 wSt5 = .advance (rejectedFifth wSol5 wSt5) ∧
    (rejectedFifth wSol5 wSt5).weekly_plan =
      wSt5.weekly_plan ++ [⟨wSt5.current_day, none, 0⟩] ∧
    (rejectedFifth wSol5 wSt5).attempts (wSt5.current_day + 1) = 0 ∧
    (wSt5.current_day < 7 →
      ∀ d ∈ (sessionRun wCfg 1 [] (nextDay (rejectedFifth wSol5 wSt5))).callLog,
        wSt5.current_day < d) :=
  C5_retry_exhausted wCfg wSol5 wSt5 1 [] rfl
    (by
      intro d hd
      have hne : d ≠ 3 := by
        simp only [wSt5] at hd
        omega
      simp [wSt5, hne])

/-- C6: when the engine returns an empty result, the orchestrator
resolves the current day at once with the failure marker (null diet,
cost 0), touches no retry counter, and carries on: for a day before
day 7 the very same run continues with the next day, and after day 7 the
week is finalized; an engine failure never aborts the session. -/
theorem C6_empty_result (cfg : Config) (fuel : ℕ) (ds : List Bool) (st : Sess)
    (hempty : (find_all_solutions cfg.solver cfg.catalog cfg.targets
      cfg.excluded st.rejected).solutions = []) :
    (failStep cfg st).attempts = st.attempts ∧
    (failStep cfg st).weekly_plan =
      st.weekly_plan ++ [⟨st.current_day, none, 0⟩] ∧
    sessionRun cfg (fuel + 1) ds st =
      (if st.current_day < 7 then
        ⟨(sessionRun cfg fuel ds (nextDay (failStep cfg st))).sess,
         st.current_day ::
           (sessionRun cfg fuel ds (nextDay (failStep cfg st))).callLog,
         (sessionRun cfg fuel ds (nextDay (failStep cfg st))).finished⟩
      else ⟨failStep cfg st, [st.current_day], true⟩) := by
  refine ⟨rfl, rfl, ?_⟩
  by_cases h7 : st.current_day < 7
  · rw [if_pos h7]
    exact sessionRun_empty_lt cfg fuel ds st hempty h7
  · rw [if_neg h7]
    exact sessionRun_empty_last cfg fuel ds st hempty h7

theorem C6_empty_result_witness :
    (failStep wCfg wSt5).attempts = wSt5.attempts ∧
    (failStep wCfg wSt5).weekly_plan =
      wSt5.weekly_plan ++ [⟨wSt5.current_day, none, 0⟩] ∧
    sessionRun wCfg (1 + 1) [] wSt5 =
      (if wSt5.current_day < 7 then
        ⟨(sessionRun wCfg 1 [] (nextDay (failStep wCfg wSt5))).sess,
         wSt5.current_day ::
           (sessionRun wCfg 1 [] (nextDay (failStep wCfg wSt5))).callLog,
         (sessionRun wCfg 1 [] (nextDay (failStep wCfg wSt5))).finished⟩
      else ⟨failStep wCfg wSt5, [wSt5.current_day], true⟩) :=
  C6_empty_result wCfg 1 [] wSt5
    (by
      show (findAux (fun _ _ _ => .failed) [] ⟨0, 0, 0, 0⟩ ∅ [] (49 + 1)).solutions = []
      rw [findAux_failed _ _ _ _ _ _ (by decide) rfl])

/-- C7: every search call terminates within the attempt budget: the loop
performs at most `attempt_limit = 50` solver invocations, collects at
most `max_solutions = 5` solutions, and every emitted solution strictly
enlarges the ledger (the ledger grows by exactly one support set per
returned solution). -/
theorem C7_termination (solver : Solver) (products : List Product)
    (tgt : Targets) (excluded : List String) (rejected : Finset (Finset ℕ)) :
    (find_all_solutions solver products tgt excluded rejected).calls ≤
      attempt_limit ∧
    (find_all_solutions solver products tgt excluded rejected).solutions.length ≤
      max_solutions ∧
    (find_all_solutions solver products tgt excluded rejected).ledger.card =
      rejected.card +
        (find_all_solutions solver products tgt excluded rejected).solutions.length := by
  refine ⟨findAux_calls_le solver (filterCatalog products excluded) tgt
      attempt_limit rejected [],
    findAux_length_le solver (filterCatalog products excluded) tgt
      attempt_limit rejected [] (by simp [max_solutions]), ?_⟩
  have h := findAux_card solver (filterCatalog products excluded) tgt
    attempt_limit rejected []
  simpa [find_all_solutions] using h

/-- C8: the exclusion filter is observably applied once per session: the
engine re-executes the deterministic filter on the immutable full catalog
at each call, which coincides, for every call of the session (every day
and retry), with running the whole session on the catalog filtered once,
up front, with no exclusions left. -/
theorem C8_filter_once (cfg : Config) :
    (∀ rejected : Finset (Finset ℕ),
      find_all_solutions cfg.solver cfg.catalog cfg.targets
        cfg.excluded rejected =
      find_all_solutions (onceFiltered cfg).solver (onceFiltered cfg).catalog
        (onceFiltered cfg).targets (onceFiltered cfg).excluded rejected) ∧
    ∀ (fuel : ℕ) (ds : List Bool) (st : Sess),
      sessionRun cfg fuel ds st = sessionRun (onceFiltered cfg) fuel ds st := by
  refine ⟨fun _ => rfl, ?_⟩
  intro fuel
  induction fuel with
  | zero => intro ds st; rfl
  | succ n ih =>
    intro ds st
    have hledg : ledgered cfg st = ledgered (onceFiltered cfg) st := rfl
    cases hsols : (find_all_solutions cfg.solver cfg.catalog cfg.targets
      cfg.excluded st.rejected).solutions with
    | nil =>
      have hsols2 : (find_all_solutions (onceFiltered cfg).solver
          (onceFiltered cfg).catalog (onceFiltered cfg).targets
          (onceFiltered cfg).excluded st.rejected).solutions = [] := hsols
      have hfs : failStep cfg st = failStep (onceFiltered cfg) st := rfl
      by_cases h7 : st.current_day < 7
      · rw [sessionRun_empty_lt cfg n ds st hsols h7,
          sessionRun_empty_lt (onceFiltered cfg) n ds st hsols2 h7, ← hfs, ih]
      · rw [sessionRun_empty_last cfg n ds st hsols h7,
          sessionRun_empty_last (onceFiltered cfg) n ds st hsols2 h7, ← hfs]
    | cons sol rest =>
      have hsols2 : (find_all_solutions (onceFiltered cfg).solver
          (onceFiltered cfg).catalog (onceFiltered cfg).targets
          (onceFiltered cfg).excluded st.rejected).solutions = sol :: rest := hsols
      cases ds with
      | nil =>
        rw [sessionRun_pause cfg n st sol rest hsols,
          sessionRun_pause (onceFiltered cfg) n st sol rest hsols2, ← hledg]
      | cons dec ds2 =>
        cases hrev : processDayReview dec sol (ledgered cfg st) with
        | again st2 =>
          have hrev2 : processDayReview dec sol
              (ledgered (onceFiltered cfg) st) = .again st2 := hrev
          rw [sessionRun_again cfg n ds2 st st2 dec sol rest hsols hrev,
            sessionRun_again (onceFiltered cfg) n ds2 st st2 dec sol rest
              hsols2 hrev2, ih]
        | advance st2 =>
          have hrev2 : processDayReview dec sol
              (ledgered (onceFiltered cfg) st) = .advance st2 := hrev
          by_cases h7 : st2.current_day < 7
          · rw [sessionRun_advance_lt cfg n ds2 st st2 dec sol rest
              hsols hrev h7,
              sessionRun_advance_lt (onceFiltered cfg) n ds2 st st2 dec sol
                rest hsols2 hrev2 h7, ih]
          · rw [sessionRun_advance_last cfg n ds2 st st2 dec sol rest
              hsols hrev h7,
              sessionRun_advance_last (onceFiltered cfg) n ds2 st st2 dec sol
                rest hsols2 hrev2 h7]

/-- C9: assuming every optimal-status solve returns a cost-minimal
assignment for its current formulation, the costs of the solutions
returned by one call to `find_all_solutions` are non-decreasing in
return order: each later solve minimizes the same objective over a
feasible set shrunk by the extra no-good cuts. -/
theorem C9_cost_monotone (solver : Solver) (products : List Product)
    (tgt : Targets) (excluded : List String) (rejected : Finset (Finset ℕ))
    (hopt : SolverOptimal solver (filterCatalog products excluded) tgt) :
    (find_all_solutions solver products tgt excluded rejected).solutions.Pairwise
      (fun a b => a.total_cost ≤ b.total_cost) :=
  findAux_cost_mono solver (filterCatalog products excluded) tgt hopt
    attempt_limit rejected [] List.Pairwise.nil (by simp)

def wProdC : Product := ⟨"C", 1, 1, 1, 1, 1⟩

def wTgtC : Targets := ⟨2, 2, 2, 2⟩

def wSolverC : Solver := fun _ _ L => if L = ∅ then .optimal [2] else .failed

theorem wSolverC_optimal : SolverOptimal wSolverC [wProdC] wTgtC := by
  intro L q h
  unfold wSolverC at h
  split at h
  case isTrue hL =>
    cases h
    subst hL
    constructor
    · refine ⟨rfl, by decide, ?_, ?_, ?_, ?_, by simp⟩ <;>
        norm_num [inWindow, nutSum, wProdC, wTgtC, deviation]
    · intro q2 hq2
      obtain ⟨hlen, hb, hw, _⟩ := hq2
      match q2, hlen with
      | [n], _ =>
        have hn3 : n ≤ 3 := hb n (by simp)
        have hw2 := hw
        interval_cases n <;>
          norm_num [inWindow, nutSum, totalCost, wProdC, wTgtC, deviation]
            at hw2 ⊢
  case isFalse => exact absurd h (by simp)

theorem C9_cost_monotone_witness :
    (find_all_solutions wSolverC [wProdC] wTgtC [] ∅).solutions.Pairwise
      (fun a b => a.total_cost ≤ b.total_cost) :=
  C9_cost_monotone wSolverC [wProdC] wTgtC [] ∅ wSolverC_optimal

/-- C10: `rejected_solutions` defaults to one set object shared by every
call that omits the argument, so two successive omitted-argument calls
thread one ledger: the second call starts from the first call's final
ledger, and therefore no support set emitted by the first call — all of
which sit in that ledger — is ever returned by the second call, even
across unrelated sessions. -/
theorem C10_shared_default_ledger (solver : Solver) (products : List Product)
    (tgt : Targets) (excluded : List String) (L0 : Finset (Finset ℕ)) :
    (∀ s1 ∈ (find_all_solutions solver products tgt excluded L0).solutions,
      s1.supp ∈ (find_all_solutions solver products tgt excluded L0).ledger) ∧
    (∀ s1 ∈ (find_all_solutions solver products tgt excluded L0).solutions,
      ∀ s2 ∈ (find_all_solutions solver products tgt excluded
          (find_all_solutions solver products tgt excluded L0).ledger).solutions,
        s2.supp ≠ s1.supp) := by
  have hledg : ∀ s1 ∈ (find_all_solutions solver products tgt excluded
      L0).solutions,
      s1.supp ∈ (find_all_solutions solver products tgt excluded L0).ledger :=
    (findAux_distinct solver (filterCatalog products excluded) tgt
      attempt_limit L0 [] (by simp) List.Pairwise.nil).1
  refine ⟨hledg, ?_⟩
  intro s1 h1 s2 h2
  have hout : s2.supp ∉ (find_all_solutions solver products tgt excluded L0).ledger :=
    findAux_avoids solver (filterCatalog products excluded) tgt
      (find_all_solutions solver products tgt excluded L0).ledger
      attempt_limit
      (find_all_solutions solver products tgt excluded L0).ledger []
      (fun _ h => h) (by simp) s2 h2
  intro he
  exact hout (he ▸ hledg s1 h1)

end Mealty
